import Mathlib

/-!
Shallow embedding of `esp32/mods/machtimer_alarm.c` (the timer-alarm core of the
pycom-micropython-sigfox port).

Modelling conventions:
* MicroPython object references are modelled by the inductive `MpObj`; the only
  value the core inspects is `mp_const_none`, modelled as `MpObj.none`.
* The C heap of `mp_obj_alarm_t *` pointers is modelled by a `Store` (a total map
  from alarm identities to alarm records) together with the list `data` of alarm
  identities currently on the alarm heap (`alarm_heap.data[0 .. count-1]`);
  `alarm_heap.count` is `data.length`.
* `heap_index` is a `uint32_t` in C; the C code stores `-1` (i.e. `0xFFFFFFFF`)
  as the not-pending sentinel and compares against `-1`.  Pending indices are at
  most 15, so the sentinel is never confused with a real index; we model the
  field as an `Int` with sentinel `-1`.
* `uint64_t` / `uint32_t` arithmetic is modelled on `Nat` with explicit
  `% 2 ^ 64` / `% 2 ^ 32` where the C code can overflow.
* The current value of the free-running hardware counter is passed explicitly
  as a `now` argument to the operations that read `TIMERG0.hw_timer[0].cnt_*`.
-/

/-- Opaque MicroPython object values, as far as this module observes them:
`mp_const_none`, some other object, or a reference to an alarm object
(`self_in` is stored into `handler_arg` when the argument is `None`). -/
inductive MpObj where
  | none
  | obj (v : Nat)
  | alarmRef (id : Nat)
deriving DecidableEq, Repr

/-- Identity of an alarm object (stands for the C pointer value). -/
abbrev AlarmId := Nat

/-- The fields of `mp_obj_alarm_t` observed by the core (the `base` field is
MicroPython type plumbing and carries no state used here). -/
structure mp_obj_alarm_t where
  when : Nat          -- uint64_t, absolute deadline in hardware ticks
  interval : Nat      -- uint64_t
  heap_index : Int    -- uint32_t in C; -1 encodes the 0xFFFFFFFF not-pending sentinel
  handler : MpObj
  handler_arg : MpObj
  periodic : Bool
deriving DecidableEq, Repr

/-- The store of alarm objects: what each alarm identity currently holds. -/
abbrev Store := AlarmId → mp_obj_alarm_t

def ALARM_HEAP_MAX_ELEMENTS : Nat := 16

/-- `2 ^ 32`, the modulus of `uint32_t` arithmetic. -/
def U32 : Nat := 2 ^ 32

/-- `2 ^ 64`, the modulus of `uint64_t` arithmetic. -/
def U64 : Nat := 2 ^ 64

/-- `CLK_FREQ = APB_CLK_FREQ / 2 = 80000000 / 2`. -/
def CLK_FREQ : Nat := 40000000

/-- The global `alarm_heap` together with the object store it points into. -/
structure AlarmHeap where
  store : Store
  data : List AlarmId

/-- Write one alarm object in the store. -/
def updStore (σ : Store) (id : AlarmId) (a : mp_obj_alarm_t) : Store :=
  fun j => if j = id then a else σ j

/-- `alarm->heap_index = i` for the object named `id`. -/
def setHeapIndex (σ : Store) (id : AlarmId) (i : Int) : Store :=
  updStore σ id { σ id with heap_index := i }

/-- Assign consecutive `heap_index` values `start, start+1, ...` to the alarms
listed in `l`, in order (models the index rewrites done by the shift loops in
`insert_alarm` and `remove_alarm`). -/
def setIndices (σ : Store) (l : List AlarmId) (start : Nat) : Store :=
  match l with
  | [] => σ
  | a :: rest => setIndices (setHeapIndex σ a (start : Int)) rest (start + 1)

/-- The scan loop of `insert_alarm`: the first position whose entry satisfies
`alarm->when <= alarm_heap.data[index]->when`, or `count` if none does. -/
def findInsertIndex (σ : Store) (w : Nat) (l : List AlarmId) : Nat :=
  match l with
  | [] => 0
  | a :: rest => if w ≤ (σ a).when then 0 else findInsertIndex σ w rest + 1

/-- `insert_alarm` (machtimer_alarm.c): find the insertion position, shift the
tail up by one slot updating each shifted alarm's `heap_index`, write the new
alarm at the vacated slot, set its `heap_index`, increment `count`.
(The hardware re-arm it triggers when the new element lands at index 0 is the
separate `load_next_alarm`, modelled below.)  Precondition from the C comment:
at least one free slot, and the alarm is not already on the heap. -/
def insert_alarm (s : AlarmHeap) (id : AlarmId) : AlarmHeap :=
  let idx := findInsertIndex s.store ((s.store id).when) s.data
  let σ1 := setIndices s.store (s.data.drop idx) (idx + 1)
  let σ2 := setHeapIndex σ1 id (idx : Int)
  { store := σ2, data := s.data.take idx ++ id :: s.data.drop idx }

/-- `remove_alarm` (machtimer_alarm.c): invalidate the removed alarm's
`heap_index` to `-1`, decrement `count`, compact by shifting every entry above
`i` down one slot, updating each shifted alarm's `heap_index`.
Precondition: `i < count`. -/
def remove_alarm (s : AlarmHeap) (i : Nat) : AlarmHeap :=
  let id := s.data.getD i 0
  let σ1 := setHeapIndex s.store id (-1)
  let σ2 := setIndices σ1 (s.data.drop (i + 1)) i
  { store := σ2, data := s.data.take i ++ s.data.drop (i + 1) }

/-- The hardware comparator registers of `TIMERG0.hw_timer[0]` touched by
`load_next_alarm`. -/
structure HwTimer where
  alarm_en : Bool
  alarm_high : Nat   -- uint32_t
  alarm_low : Nat    -- uint32_t
deriving DecidableEq, Repr

/-- `load_next_alarm`: disarm the comparator unconditionally, then, if the heap
is non-empty, program the compare registers with the deadline of the alarm at
index 0 and re-enable the comparator. -/
def load_next_alarm (s : AlarmHeap) (hw : HwTimer) : HwTimer :=
  let hw0 : HwTimer := { hw with alarm_en := false }
  match s.data with
  | [] => hw0
  | a :: _ =>
    { alarm_en := true
      alarm_high := ((s.store a).when / U32) % U32
      alarm_low := (s.store a).when % U32 }

/-- `set_alarm_when`: sample the 64-bit counter (`now`, truncated to 64 bits as
the registers hold) and set `alarm->when = now + delta` in `uint64_t`
arithmetic. -/
def set_alarm_when (σ : Store) (id : AlarmId) (now delta : Nat) : Store :=
  updStore σ id { σ id with when := (now % U64 + delta) % U64 }

/-- `timer_alarm_isr`: acknowledge the interrupt; if the heap is non-empty, pop
index 0, reinsert the alarm with deadline `now + interval` when it is periodic,
reprogram the hardware via `load_next_alarm`, and hand the popped alarm to
deferred dispatch (the returned `Option AlarmId`). -/
def timer_alarm_isr (s : AlarmHeap) (hw : HwTimer) (now : Nat) :
    AlarmHeap × HwTimer × Option AlarmId :=
  match s.data with
  | [] => (s, hw, Option.none)
  | a :: _ =>
    let s1 := remove_alarm s 0
    let s2 :=
      if (s1.store a).periodic then
        insert_alarm { store := set_alarm_when s1.store a now ((s1.store a).interval)
                       data := s1.data } a
      else s1
    (s2, load_next_alarm s2 hw, Option.some a)

/-- `alarm_delete` (bound as both `__del__` and `cancel`): if the alarm is
currently on the heap (`heap_index != -1`), remove it; otherwise do nothing. -/
def alarm_delete (s : AlarmHeap) (id : AlarmId) : AlarmHeap :=
  if (s.store id).heap_index ≠ -1 then
    remove_alarm s ((s.store id).heap_index).toNat
  else s

/-- The two stores `self->handler = handler; self->handler_arg = handler_arg;`
performed by `alarm_set_callback_helper` before the atomic section. -/
def setHandler (σ : Store) (id : AlarmId) (h a : MpObj) : Store :=
  updStore σ id { σ id with handler := h, handler_arg := a }

/-- Result of `alarm_set_callback_helper`: the new heap/store state, and
whether the capacity error (`MemoryError`, the spec's `CapacityExceeded`) is
raised after the atomic section. -/
structure CallbackResult where
  st : AlarmHeap
  error : Bool

/-- `alarm_set_callback_helper`: store `handler` and `handler_arg` (replacing a
`None` argument by the alarm object itself); then, under the atomic section:
if `handler` is `None`, remove the alarm when it is pending; otherwise, if the
alarm is not pending, either flag the capacity error (when `count == 16`) or
compute `when = now + interval` and insert. -/
def alarm_set_callback_helper (s : AlarmHeap) (id : AlarmId)
    (handler handler_arg : MpObj) (now : Nat) : CallbackResult :=
  let harg := if handler_arg = MpObj.none then MpObj.alarmRef id else handler_arg
  let σa := setHandler s.store id handler harg
  let s0 : AlarmHeap := { store := σa, data := s.data }
  if handler = MpObj.none then
    if (σa id).heap_index ≠ -1 then
      { st := remove_alarm s0 ((σa id).heap_index).toNat, error := false }
    else
      { st := s0, error := false }
  else
    if (σa id).heap_index = -1 then
      if s.data.length = ALARM_HEAP_MAX_ELEMENTS then
        { st := s0, error := true }
      else
        { st := insert_alarm { store := set_alarm_when σa id now ((σa id).interval)
                               data := s.data } id
          error := false }
    else
      { st := s0, error := false }

/-- The duration validation and tick conversion of `alarm_make_new`.  The C
code reads `s` as a C `float`; we model its value exactly as a rational (the
floating-point rounding of `s * CLK_FREQ` is not modelled; every concrete input
used below has `s = 0`, which is float-exact).  `ms` and `us` arrive as
`mp_int_t` machine integers and are assigned to `uint32_t` variables, i.e.
reduced modulo `2 ^ 32`; the subsequent `ms < 0` / `us < 0` comparisons are
unsigned.  `ms * (CLK_FREQ/1000)` and `us * (CLK_FREQ/1000000)` are `uint32_t`
multiplications (modulo `2 ^ 32`); the final sum is `uint64_t`.  Returns the
computed `interval` in clocks, or the raised `ValueError` message. -/
def alarm_make_new_core (s : ℚ) (ms_in us_in : Int) : Except String Nat :=
  let ms : Nat := (ms_in % (2 ^ 32 : Int)).toNat
  let us : Nat := (us_in % (2 ^ 32 : Int)).toNat
  if ((if s ≠ 0 then 1 else 0) + (if ms ≠ 0 then 1 else 0) +
      (if us ≠ 0 then 1 else 0) : Nat) ≠ 1 then
    Except.error "please provide a single duration"
  else if s < 0 then
    Except.error "please provide a positive number"
  else
    Except.ok (((s * (CLK_FREQ : ℚ) + 1/2).floor.toNat
        + (ms * (CLK_FREQ / 1000)) % U32 + (us * (CLK_FREQ / 1000000)) % U32) % U64)

/-- The deadlines on the heap are non-decreasing from index 0 upward. -/
def SortedHeap (σ : Store) (l : List AlarmId) : Prop :=
  List.Pairwise (fun a b => (σ a).when ≤ (σ b).when) l

/-- The state invariant of the alarm heap: no alarm appears twice, the count is
within capacity, every member's `heap_index` equals its position, every
non-member's `heap_index` is the `-1` sentinel, and deadlines are ordered. -/
structure HeapInv (s : AlarmHeap) : Prop where
  nodup : s.data.Nodup
  cap : s.data.length ≤ ALARM_HEAP_MAX_ELEMENTS
  pos : ∀ i : Fin s.data.length, (s.store (s.data.get i)).heap_index = (i.val : Int)
  clear : ∀ id, id ∉ s.data → (s.store id).heap_index = -1
  sorted : SortedHeap s.store s.data

/-- The two stores agree on every field except possibly `heap_index`. -/
def SameObjs (σ τ : Store) : Prop :=
  ∀ j, (τ j).when = (σ j).when ∧ (τ j).interval = (σ j).interval ∧
       (τ j).periodic = (σ j).periodic ∧ (τ j).handler = (σ j).handler ∧
       (τ j).handler_arg = (σ j).handler_arg

theorem sameObjs_refl (σ : Store) : SameObjs σ σ := by
  intro j; exact ⟨rfl, rfl, rfl, rfl, rfl⟩

theorem sameObjs_trans {σ τ ρ : Store} (h1 : SameObjs σ τ) (h2 : SameObjs τ ρ) :
    SameObjs σ ρ := by
  intro j
  obtain ⟨a1, a2, a3, a4, a5⟩ := h1 j
  obtain ⟨b1, b2, b3, b4, b5⟩ := h2 j
  exact ⟨b1.trans a1, b2.trans a2, b3.trans a3, b4.trans a4, b5.trans a5⟩

theorem updStore_self (σ : Store) (id : AlarmId) (a : mp_obj_alarm_t) :
    updStore σ id a id = a := by
  simp [updStore]

theorem updStore_other (σ : Store) (id : AlarmId) (a : mp_obj_alarm_t)
    (j : AlarmId) (h : j ≠ id) : updStore σ id a j = σ j := by
  simp [updStore, h]

theorem setHeapIndex_sameObjs (σ : Store) (id : AlarmId) (i : Int) :
    SameObjs σ (setHeapIndex σ id i) := by
  intro j
  by_cases h : j = id
  · subst h; simp [setHeapIndex, updStore]
  · simp [setHeapIndex, updStore_other _ _ _ _ h]

theorem setHeapIndex_self (σ : Store) (id : AlarmId) (i : Int) :
    ((setHeapIndex σ id i) id).heap_index = i := by
  simp [setHeapIndex, updStore]

theorem setHeapIndex_other (σ : Store) (id : AlarmId) (i : Int) (j : AlarmId)
    (h : j ≠ id) : (setHeapIndex σ id i) j = σ j := by
  simp [setHeapIndex, updStore_other _ _ _ _ h]

theorem setIndices_sameObjs (l : List AlarmId) (σ : Store) (start : Nat) :
    SameObjs σ (setIndices σ l start) := by
  induction l generalizing σ start with
  | nil => exact sameObjs_refl σ
  | cons a rest ih =>
      exact sameObjs_trans (setHeapIndex_sameObjs σ a start) (ih _ _)

theorem setIndices_notmem (l : List AlarmId) (σ : Store) (start : Nat)
    (j : AlarmId) (h : j ∉ l) : setIndices σ l start j = σ j := by
  induction l generalizing σ start with
  | nil => rfl
  | cons a rest ih =>
      have hja : j ≠ a := fun hc => h (hc ▸ List.mem_cons_self a rest)
      have hjr : j ∉ rest := fun hc => h (List.mem_cons_of_mem a hc)
      rw [setIndices, ih _ _ hjr, setHeapIndex_other _ _ _ _ hja]

theorem setIndices_getElem (l : List AlarmId) (σ : Store) (start : Nat)
    (hnd : l.Nodup) (k : Nat) (hk : k < l.length) :
    ((setIndices σ l start) l[k]).heap_index = ((start + k : Nat) : Int) := by
  induction l generalizing σ start k with
  | nil => exact absurd hk (by simp)
  | cons a rest ih =>
      obtain ⟨hna, hnr⟩ := List.nodup_cons.mp hnd
      cases k with
      | zero =>
          show ((setIndices (setHeapIndex σ a (start : Int)) rest (start + 1)) a).heap_index = _
          rw [setIndices_notmem rest _ _ a hna, setHeapIndex_self]
          simp
      | succ k =>
          have hk' : k < rest.length := by simpa using hk
          show ((setIndices (setHeapIndex σ a (start : Int)) rest (start + 1)) rest[k]).heap_index = _
          rw [ih _ _ hnr k hk']
          push_cast
          ring

theorem findInsertIndex_le (σ : Store) (w : Nat) (l : List AlarmId) :
    findInsertIndex σ w l ≤ l.length := by
  induction l with
  | nil => exact Nat.le_refl 0
  | cons a rest ih =>
      rw [findInsertIndex]
      by_cases h : w ≤ (σ a).when
      · simp [h]
      · simp only [if_neg h, List.length_cons]
        exact Nat.succ_le_succ ih

theorem findInsertIndex_spec_lt (σ : Store) (w : Nat) (l : List AlarmId)
    (k : Nat) (hk : k < findInsertIndex σ w l) :
    ∃ hkl : k < l.length, (σ (l.get ⟨k, hkl⟩)).when < w := by
  induction l generalizing k with
  | nil => exact absurd hk (by simp [findInsertIndex])
  | cons a rest ih =>
      rw [findInsertIndex] at hk
      by_cases h : w ≤ (σ a).when
      · rw [if_pos h] at hk; exact absurd hk (Nat.not_lt_zero k)
      · rw [if_neg h] at hk
        cases k with
        | zero => exact ⟨by simp, Nat.lt_of_not_le h⟩
        | succ k =>
            obtain ⟨hkl, hw⟩ := ih k (Nat.lt_of_succ_lt_succ hk)
            exact ⟨Nat.succ_lt_succ hkl, hw⟩

theorem findInsertIndex_spec_ge (σ : Store) (w : Nat) (l : List AlarmId)
    (hl : findInsertIndex σ w l < l.length) :
    w ≤ (σ (l.get ⟨findInsertIndex σ w l, hl⟩)).when := by
  induction l with
  | nil => exact absurd hl (by simp [findInsertIndex])
  | cons a rest ih =>
      by_cases h : w ≤ (σ a).when
      · simp only [findInsertIndex, if_pos h] at hl ⊢
        exact h
      · simp only [findInsertIndex, if_neg h] at hl ⊢
        exact ih (Nat.lt_of_succ_lt_succ hl)

theorem nodup_getElem_ne (l : List AlarmId) (hnd : l.Nodup) (i j : Nat)
    (hi : i < l.length) (hj : j < l.length) (hne : i ≠ j) : l[i] ≠ l[j] := by
  intro hc
  exact hne ((hnd.getElem_inj_iff).mp hc)

theorem nodup_insert_list (l : List AlarmId) (id : AlarmId) (idx : Nat)
    (hnd : l.Nodup) (hid : id ∉ l) :
    (l.take idx ++ id :: l.drop idx).Nodup := by
  apply List.nodup_middle.mpr
  rw [List.take_append_drop]
  exact List.nodup_cons.mpr ⟨hid, hnd⟩

theorem length_insert_list (l : List AlarmId) (id : AlarmId) (idx : Nat)
    (hidx : idx ≤ l.length) :
    (l.take idx ++ id :: l.drop idx).length = l.length + 1 := by
  simp [List.length_take, List.length_drop]
  omega

theorem length_remove_list (l : List AlarmId) (i : Nat) (hi : i < l.length) :
    (l.take i ++ l.drop (i + 1)).length = l.length - 1 := by
  simp [List.length_take, List.length_drop]
  omega

theorem pos_insert (σ2 : Store) (l : List AlarmId) (id : AlarmId) (idx : Nat)
    (hidx : idx ≤ l.length)
    (h_lt : ∀ k (hk : k < l.length), k < idx → (σ2 l[k]).heap_index = (k : Int))
    (h_id : (σ2 id).heap_index = (idx : Int))
    (h_gt : ∀ k (hk : k < l.length), idx ≤ k → (σ2 l[k]).heap_index = ((k + 1 : Nat) : Int)) :
    ∀ i : Fin (l.take idx ++ id :: l.drop idx).length,
      (σ2 ((l.take idx ++ id :: l.drop idx).get i)).heap_index = (i.val : Int) := by
  intro ⟨k, hk⟩
  have hlen : (l.take idx ++ id :: l.drop idx).length = l.length + 1 :=
    length_insert_list l id idx hidx
  have hkl : k < l.length + 1 := hlen ▸ hk
  have htl : (l.take idx).length = idx := by simp [List.length_take]; omega
  simp only [List.get_eq_getElem]
  rcases Nat.lt_trichotomy k idx with hlt | heq | hgt
  · have hk1 : k < (l.take idx).length := by omega
    rw [List.getElem_append_left hk1, List.getElem_take]
    exact h_lt k (by omega) hlt
  · have hk1 : (l.take idx).length ≤ k := by omega
    rw [List.getElem_append_right hk1]
    have h3 : k - (l.take idx).length = 0 := by omega
    simp only [h3, List.getElem_cons_zero]
    rw [h_id, heq]
  · have hk1 : (l.take idx).length ≤ k := by omega
    rw [List.getElem_append_right hk1]
    have h0 : k - (l.take idx).length = (k - idx - 1) + 1 := by omega
    simp only [h0, List.getElem_cons_succ, List.getElem_drop]
    have h1 : idx + (k - idx - 1) = k - 1 := by omega
    have hk2 : k - 1 < l.length := by omega
    have h2 : (k - 1) + 1 = k := by omega
    simp only [h1]
    rw [h_gt (k - 1) hk2 (by omega), h2]

theorem pos_remove (σ2 : Store) (l : List AlarmId) (i : Nat) (hi : i < l.length)
    (h_lt : ∀ k (hk : k < l.length), k < i → (σ2 l[k]).heap_index = (k : Int))
    (h_gt : ∀ k (hk : k < l.length), i < k → (σ2 l[k]).heap_index = ((k - 1 : Nat) : Int)) :
    ∀ j : Fin (l.take i ++ l.drop (i + 1)).length,
      (σ2 ((l.take i ++ l.drop (i + 1)).get j)).heap_index = (j.val : Int) := by
  intro ⟨k, hk⟩
  have hlen : (l.take i ++ l.drop (i + 1)).length = l.length - 1 :=
    length_remove_list l i hi
  have hkl : k < l.length - 1 := hlen ▸ hk
  have htl : (l.take i).length = i := by simp [List.length_take]; omega
  simp only [List.get_eq_getElem]
  rcases Nat.lt_or_ge k i with hlt | hge
  · have hk1 : k < (l.take i).length := by omega
    rw [List.getElem_append_left hk1, List.getElem_take]
    exact h_lt k (by omega) hlt
  · have hk1 : (l.take i).length ≤ k := by omega
    rw [List.getElem_append_right hk1]
    simp only [htl, List.getElem_drop]
    have h1 : i + 1 + (k - i) = k + 1 := by omega
    have hk2 : k + 1 < l.length := by omega
    simp only [h1]
    simpa using h_gt (k + 1) hk2 (by omega)

theorem sorted_congr (σ τ : Store) (l : List AlarmId) (hsame : SameObjs σ τ)
    (h : SortedHeap σ l) : SortedHeap τ l := by
  apply List.Pairwise.imp ?_ h
  intro a b hab
  rw [(hsame a).1, (hsame b).1]
  exact hab

theorem sorted_insert (σ : Store) (l : List AlarmId) (id : AlarmId) (idx : Nat)
    (hidx : idx ≤ l.length) (hs : SortedHeap σ l)
    (hlo : ∀ k (hk : k < l.length), k < idx → (σ l[k]).when < (σ id).when)
    (hhi : ∀ hl : idx < l.length, (σ id).when ≤ (σ l[idx]).when) :
    SortedHeap σ (l.take idx ++ id :: l.drop idx) := by
  have hs' : List.Pairwise (fun a b => (σ a).when ≤ (σ b).when) (l.take idx ++ l.drop idx) := by
    rw [List.take_append_drop]; exact hs
  obtain ⟨ptake, pdrop, pcross⟩ := List.pairwise_append.mp hs'
  have hsget := List.pairwise_iff_getElem.mp hs
  have htl : (l.take idx).length = idx := by simp [List.length_take]; omega
  have hdropw : ∀ b ∈ l.drop idx, (σ id).when ≤ (σ b).when := by
    intro b hb
    obtain ⟨j, hj, hbj⟩ := List.mem_iff_getElem.mp hb
    have hjd : j < l.length - idx := by simpa [List.length_drop] using hj
    have hlt1 : idx + j < l.length := by omega
    have hb' : b = l[idx + j] := by
      rw [← hbj]; simp [List.getElem_drop]
    have hidxlt : idx < l.length := by omega
    rcases Nat.eq_zero_or_pos j with hj0 | hjp
    · have hidj : idx + j = idx := by omega
      rw [hb']
      simp only [hidj]
      exact hhi hidxlt
    · have h1 : (σ id).when ≤ (σ l[idx]).when := hhi hidxlt
      have h2 : (σ l[idx]).when ≤ (σ l[idx + j]).when :=
        hsget idx (idx + j) hidxlt (by omega) (by omega)
      rw [hb']
      exact le_trans h1 h2
  have htakew : ∀ a ∈ l.take idx, (σ a).when < (σ id).when := by
    intro a ha
    obtain ⟨k, hkl, hak⟩ := List.mem_iff_getElem.mp ha
    have hkidx : k < idx := by omega
    have hkl2 : k < l.length := by omega
    have ha' : a = l[k] := by rw [← hak]; simp [List.getElem_take]
    rw [ha']
    exact hlo k hkl2 hkidx
  apply List.pairwise_append.mpr
  refine ⟨ptake, ?_, ?_⟩
  · apply List.pairwise_cons.mpr
    exact ⟨hdropw, pdrop⟩
  · intro a ha b hb
    rcases List.mem_cons.mp hb with hb1 | hb2
    · rw [hb1]
      exact le_of_lt (htakew a ha)
    · exact pcross a ha b hb2

theorem remove_list_sublist (l : List AlarmId) (i : Nat) :
    List.Sublist (l.take i ++ l.drop (i + 1)) l := by
  have h1 : List.Sublist (l.drop (i + 1)) (l.drop i) := by
    rcases Nat.lt_or_ge i l.length with hi | hi
    · rw [List.drop_eq_getElem_cons hi]
      exact List.sublist_cons_self _ _
    · rw [List.drop_of_length_le hi, List.drop_of_length_le (by omega)]
  have h2 : List.Sublist (l.take i ++ l.drop (i + 1)) (l.take i ++ l.drop i) :=
    List.Sublist.append_left h1 _
  have h3 : l.take i ++ l.drop i = l := List.take_append_drop i l
  simpa only [h3] using h2

theorem sorted_remove (σ : Store) (l : List AlarmId) (i : Nat)
    (hs : SortedHeap σ l) : SortedHeap σ (l.take i ++ l.drop (i + 1)) :=
  List.Pairwise.sublist (remove_list_sublist l i) hs

theorem insert_components_inv (σ : Store) (l : List AlarmId) (id : AlarmId) (idx : Nat)
    (hnd : l.Nodup) (hcap : l.length < ALARM_HEAP_MAX_ELEMENTS)
    (hpos : ∀ i : Fin l.length, (σ (l.get i)).heap_index = (i.val : Int))
    (hclear : ∀ j, j ∉ l → (σ j).heap_index = -1)
    (hsort : SortedHeap σ l)
    (hid : id ∉ l)
    (hidx_eq : idx = findInsertIndex σ ((σ id).when) l) :
    HeapInv ⟨setHeapIndex (setIndices σ (l.drop idx) (idx + 1)) id (idx : Int),
             l.take idx ++ id :: l.drop idx⟩ := by
  have hidxle : idx ≤ l.length := by
    rw [hidx_eq]; exact findInsertIndex_le σ ((σ id).when) l
  have hdropnd : (l.drop idx).Nodup := (List.drop_sublist idx l).nodup hnd
  have hne_of_mem : ∀ k (hk : k < l.length), l[k] ≠ id := by
    intro k hk hc
    exact hid (hc ▸ List.getElem_mem hk)
  have hnotdrop_lt : ∀ k (hk : k < l.length), k < idx → l[k] ∉ l.drop idx := by
    intro k hk hkidx hmem2
    obtain ⟨j, hj, hlj⟩ := List.mem_iff_getElem.mp hmem2
    have hj' : j < l.length - idx := by simpa [List.length_drop] using hj
    have hlt1 : idx + j < l.length := by omega
    have : l[idx + j] = l[k] := by
      rw [← hlj]; simp [List.getElem_drop]
    exact nodup_getElem_ne l hnd (idx + j) k hlt1 hk (by omega) this
  refine ⟨?_, ?_, ?_, ?_, ?_⟩
  · exact nodup_insert_list l id idx hnd hid
  · show (l.take idx ++ id :: l.drop idx).length ≤ ALARM_HEAP_MAX_ELEMENTS
    rw [length_insert_list l id idx hidxle]
    omega
  · dsimp only
    apply pos_insert _ l id idx hidxle
    · intro k hk hkidx
      rw [setHeapIndex_other _ _ _ _ (hne_of_mem k hk),
          setIndices_notmem _ _ _ _ (hnotdrop_lt k hk hkidx)]
      have := hpos ⟨k, hk⟩
      simpa using this
    · exact setHeapIndex_self _ _ _
    · intro k hk hge
      rw [setHeapIndex_other _ _ _ _ (hne_of_mem k hk)]
      have hkd : k - idx < (l.drop idx).length := by simp [List.length_drop]; omega
      have hgd : (l.drop idx)[k - idx] = l[k] := by
        simp only [List.getElem_drop]
        congr 1
        omega
      rw [← hgd, setIndices_getElem _ _ _ hdropnd (k - idx) hkd]
      congr 1
      omega
  · intro j hj
    dsimp only at hj ⊢
    have hj1 : j ≠ id := by
      intro hc
      exact hj (hc ▸ (List.mem_append.mpr (Or.inr (List.mem_cons_self _ _))))
    have hj2 : j ∉ l := by
      intro hc
      rcases List.mem_append.mp ((List.take_append_drop idx l) ▸ hc) with h1 | h2
      · exact hj (List.mem_append.mpr (Or.inl h1))
      · exact hj (List.mem_append.mpr (Or.inr (List.mem_cons_of_mem _ h2)))
    have hj3 : j ∉ l.drop idx := fun hc => hj2 ((List.drop_sublist idx l).mem hc)
    rw [setHeapIndex_other _ _ _ _ hj1, setIndices_notmem _ _ _ _ hj3]
    exact hclear j hj2
  · dsimp only [SortedHeap]
    apply sorted_congr σ _ _
      (sameObjs_trans (setIndices_sameObjs (l.drop idx) σ (idx + 1))
        (setHeapIndex_sameObjs _ id (idx : Int)))
    apply sorted_insert σ l id idx hidxle hsort
    · intro k hk hkidx
      obtain ⟨hkl, hw⟩ := findInsertIndex_spec_lt σ ((σ id).when) l k (hidx_eq ▸ hkidx)
      simpa using hw
    · intro hl
      have hl2 : findInsertIndex σ ((σ id).when) l < l.length := hidx_eq ▸ hl
      have := findInsertIndex_spec_ge σ ((σ id).when) l hl2
      simp only [List.get_eq_getElem] at this
      rw [show l[idx] = l[findInsertIndex σ ((σ id).when) l] from by
        simp only [hidx_eq]]
      exact this

theorem insert_alarm_inv (s : AlarmHeap) (id : AlarmId) (h : HeapInv s)
    (hlen : s.data.length < ALARM_HEAP_MAX_ELEMENTS) (hid : id ∉ s.data) :
    HeapInv (insert_alarm s id) := by
  obtain ⟨σ, l⟩ := s
  obtain ⟨hnd, hcap, hpos, hclear, hsort⟩ := h
  exact insert_components_inv σ l id (findInsertIndex σ ((σ id).when) l)
    hnd hlen hpos hclear hsort hid rfl

theorem remove_components_inv (σ : Store) (l : List AlarmId) (i : Nat) (rid : AlarmId)
    (hi : i < l.length)
    (hnd : l.Nodup) (hcap : l.length ≤ ALARM_HEAP_MAX_ELEMENTS)
    (hpos : ∀ j : Fin l.length, (σ (l.get j)).heap_index = (j.val : Int))
    (hclear : ∀ j, j ∉ l → (σ j).heap_index = -1)
    (hsort : SortedHeap σ l)
    (hrid : rid = l[i]) :
    HeapInv ⟨setIndices (setHeapIndex σ rid (-1)) (l.drop (i + 1)) i,
             l.take i ++ l.drop (i + 1)⟩ := by
  have hdropnd : (l.drop (i + 1)).Nodup := (List.drop_sublist (i + 1) l).nodup hnd
  have hdec : l.take i ++ l[i] :: l.drop (i + 1) = l := by
    rw [List.getElem_cons_drop]
    exact List.take_append_drop i l
  have hrid_notdrop : rid ∉ l.drop (i + 1) := by
    intro hc
    obtain ⟨j, hj, hlj⟩ := List.mem_iff_getElem.mp hc
    have hj' : j < l.length - (i + 1) := by simpa [List.length_drop] using hj
    have hlt1 : i + 1 + j < l.length := by omega
    have : l[i + 1 + j] = l[i] := by
      rw [← hrid, ← hlj]; simp [List.getElem_drop]
    exact nodup_getElem_ne l hnd (i + 1 + j) i hlt1 hi (by omega) this
  have hnotdrop_lt : ∀ k (hk : k < l.length), k < i → l[k] ∉ l.drop (i + 1) := by
    intro k hk hki hc
    obtain ⟨j, hj, hlj⟩ := List.mem_iff_getElem.mp hc
    have hj' : j < l.length - (i + 1) := by simpa [List.length_drop] using hj
    have hlt1 : i + 1 + j < l.length := by omega
    have : l[i + 1 + j] = l[k] := by
      rw [← hlj]; simp [List.getElem_drop]
    exact nodup_getElem_ne l hnd (i + 1 + j) k hlt1 hk (by omega) this
  have hne_lt : ∀ k (hk : k < l.length), k ≠ i → l[k] ≠ rid := by
    intro k hk hki
    rw [hrid]
    exact nodup_getElem_ne l hnd k i hk hi hki
  refine ⟨?_, ?_, ?_, ?_, ?_⟩
  · exact (remove_list_sublist l i).nodup hnd
  · show (l.take i ++ l.drop (i + 1)).length ≤ ALARM_HEAP_MAX_ELEMENTS
    rw [length_remove_list l i hi]
    omega
  · dsimp only
    apply pos_remove _ l i hi
    · intro k hk hki
      rw [setIndices_notmem _ _ _ _ (hnotdrop_lt k hk hki),
          setHeapIndex_other _ _ _ _ (hne_lt k hk (by omega))]
      simpa using hpos ⟨k, hk⟩
    · intro k hk hik
      have hkd : k - (i + 1) < (l.drop (i + 1)).length := by simp [List.length_drop]; omega
      have hgd : (l.drop (i + 1))[k - (i + 1)] = l[k] := by
        simp only [List.getElem_drop]
        congr 1
        omega
      rw [← hgd, setIndices_getElem _ _ _ hdropnd (k - (i + 1)) hkd]
      congr 1
      omega
  · intro j hj
    dsimp only at hj ⊢
    by_cases hjr : j = rid
    · rw [hjr, setIndices_notmem _ _ _ _ hrid_notdrop, setHeapIndex_self]
    · have hj2 : j ∉ l := by
        intro hc
        rw [← hdec] at hc
        rcases List.mem_append.mp hc with h1 | h2
        · exact hj (List.mem_append.mpr (Or.inl h1))
        · rcases List.mem_cons.mp h2 with h3 | h4
          · exact hjr (by rw [h3, hrid])
          · exact hj (List.mem_append.mpr (Or.inr h4))
      have hj3 : j ∉ l.drop (i + 1) := fun hc => hj2 ((List.drop_sublist (i + 1) l).mem hc)
      rw [setIndices_notmem _ _ _ _ hj3, setHeapIndex_other _ _ _ _ hjr]
      exact hclear j hj2
  · dsimp only [SortedHeap]
    apply sorted_congr σ _ _
      (sameObjs_trans (setHeapIndex_sameObjs σ rid (-1))
        (setIndices_sameObjs (l.drop (i + 1)) _ i))
    exact sorted_remove σ l i hsort

theorem remove_alarm_inv (s : AlarmHeap) (i : Nat) (h : HeapInv s)
    (hi : i < s.data.length) : HeapInv (remove_alarm s i) := by
  obtain ⟨σ, l⟩ := s
  obtain ⟨hnd, hcap, hpos, hclear, hsort⟩ := h
  exact remove_components_inv σ l i (l.getD i 0) hi hnd hcap hpos hclear hsort
    (List.getD_eq_getElem l 0 hi)

theorem heapInv_mem_iff (s : AlarmHeap) (h : HeapInv s) (id : AlarmId) :
    id ∈ s.data ↔ (s.store id).heap_index ≠ -1 := by
  constructor
  · intro hm
    obtain ⟨⟨k, hk⟩, hg⟩ := List.mem_iff_get.mp hm
    have := h.pos ⟨k, hk⟩
    rw [hg] at this
    rw [this]
    omega
  · intro hne
    by_contra hc
    exact hne (h.clear id hc)

theorem heapInv_pending_pos (s : AlarmHeap) (h : HeapInv s) (id : AlarmId)
    (hp : (s.store id).heap_index ≠ -1) :
    ∃ k : Nat, ∃ hk : k < s.data.length, s.data.get ⟨k, hk⟩ = id ∧
      (s.store id).heap_index = (k : Int) := by
  have hm : id ∈ s.data := (heapInv_mem_iff s h id).mpr hp
  obtain ⟨⟨k, hk⟩, hg⟩ := List.mem_iff_get.mp hm
  refine ⟨k, hk, hg, ?_⟩
  have := h.pos ⟨k, hk⟩
  rw [hg] at this
  exact this

theorem remove_alarm_sameObjs (s : AlarmHeap) (i : Nat) :
    SameObjs s.store (remove_alarm s i).store := by
  obtain ⟨σ, l⟩ := s
  exact sameObjs_trans (setHeapIndex_sameObjs σ (l.getD i 0) (-1))
    (setIndices_sameObjs (l.drop (i + 1)) _ i)

theorem insert_alarm_sameObjs (s : AlarmHeap) (id : AlarmId) :
    SameObjs s.store (insert_alarm s id).store := by
  obtain ⟨σ, l⟩ := s
  exact sameObjs_trans
    (setIndices_sameObjs (l.drop (findInsertIndex σ ((σ id).when) l)) σ _)
    (setHeapIndex_sameObjs _ id _)

theorem remove_alarm_data (s : AlarmHeap) (i : Nat) :
    (remove_alarm s i).data = s.data.take i ++ s.data.drop (i + 1) := rfl

theorem insert_alarm_data (s : AlarmHeap) (id : AlarmId) :
    (insert_alarm s id).data =
      s.data.take (findInsertIndex s.store ((s.store id).when) s.data) ++
        id :: s.data.drop (findInsertIndex s.store ((s.store id).when) s.data) := rfl

theorem remove_alarm_removed_index (s : AlarmHeap) (i : Nat) (h : HeapInv s)
    (hi : i < s.data.length) :
    ((remove_alarm s i).store (s.data.get ⟨i, hi⟩)).heap_index = -1 := by
  obtain ⟨σ, l⟩ := s
  have hrid : l.getD i 0 = l.get ⟨i, hi⟩ := by
    rw [List.getD_eq_getElem l 0 hi, List.get_eq_getElem]
  have hil : i < l.length := hi
  have hnotdrop : l.get ⟨i, hi⟩ ∉ l.drop (i + 1) := by
    intro hc
    obtain ⟨j, hj, hlj⟩ := List.mem_iff_getElem.mp hc
    have hj' : j < l.length - (i + 1) := by simpa [List.length_drop] using hj
    have hlt1 : i + 1 + j < l.length := by omega
    have : l[i + 1 + j] = l[i] := by
      rw [← List.get_eq_getElem l ⟨i, hi⟩, ← hlj]
      simp [List.getElem_drop]
    exact nodup_getElem_ne l h.nodup (i + 1 + j) i hlt1 hil (by omega) this
  show ((setIndices (setHeapIndex σ (l.getD i 0) (-1)) (l.drop (i + 1)) i)
      (l.get ⟨i, hi⟩)).heap_index = -1
  rw [setIndices_notmem _ _ _ _ hnotdrop, hrid, setHeapIndex_self]

theorem heapInv_congr (s : AlarmHeap) (σ2 : Store)
    (hidx : ∀ j, (σ2 j).heap_index = (s.store j).heap_index)
    (hwhen : ∀ j, j ∈ s.data → (σ2 j).when = (s.store j).when)
    (h : HeapInv s) : HeapInv ⟨σ2, s.data⟩ := by
  obtain ⟨σ, l⟩ := s
  obtain ⟨hnd, hcap, hpos, hclear, hsort⟩ := h
  refine ⟨hnd, hcap, ?_, ?_, ?_⟩
  · intro i
    rw [hidx]
    exact hpos i
  · intro j hj
    rw [hidx]
    exact hclear j hj
  · show SortedHeap σ2 l
    rw [SortedHeap, List.pairwise_iff_getElem] at hsort ⊢
    intro a b ha hb hab
    rw [hwhen _ (List.getElem_mem ha), hwhen _ (List.getElem_mem hb)]
    exact hsort a b ha hb hab

theorem set_alarm_when_heap_index (σ : Store) (id : AlarmId) (now delta : Nat) (j : AlarmId) :
    ((set_alarm_when σ id now delta) j).heap_index = (σ j).heap_index := by
  by_cases h : j = id
  · rw [h]; simp [set_alarm_when, updStore]
  · simp [set_alarm_when, updStore_other _ _ _ _ h]

theorem set_alarm_when_other (σ : Store) (id : AlarmId) (now delta : Nat) (j : AlarmId)
    (h : j ≠ id) : (set_alarm_when σ id now delta) j = σ j := by
  simp [set_alarm_when, updStore_other _ _ _ _ h]

theorem set_alarm_when_self_when (σ : Store) (id : AlarmId) (now delta : Nat) :
    ((set_alarm_when σ id now delta) id).when = (now % U64 + delta) % U64 := by
  simp [set_alarm_when, updStore]

theorem set_alarm_when_self_interval (σ : Store) (id : AlarmId) (now delta : Nat) :
    ((set_alarm_when σ id now delta) id).interval = (σ id).interval := by
  simp [set_alarm_when, updStore]


theorem setHandler_heap_index (σ : Store) (id : AlarmId) (h a : MpObj) (j : AlarmId) :
    ((setHandler σ id h a) j).heap_index = (σ j).heap_index := by
  by_cases hj : j = id
  · rw [hj]; simp [setHandler, updStore]
  · simp [setHandler, updStore_other _ _ _ _ hj]

theorem setHandler_when (σ : Store) (id : AlarmId) (h a : MpObj) (j : AlarmId) :
    ((setHandler σ id h a) j).when = (σ j).when := by
  by_cases hj : j = id
  · rw [hj]; simp [setHandler, updStore]
  · simp [setHandler, updStore_other _ _ _ _ hj]

theorem setHandler_interval (σ : Store) (id : AlarmId) (h a : MpObj) (j : AlarmId) :
    ((setHandler σ id h a) j).interval = (σ j).interval := by
  by_cases hj : j = id
  · rw [hj]; simp [setHandler, updStore]
  · simp [setHandler, updStore_other _ _ _ _ hj]

theorem setHandler_other (σ : Store) (id : AlarmId) (h a : MpObj) (j : AlarmId)
    (hj : j ≠ id) : (setHandler σ id h a) j = σ j := by
  simp [setHandler, updStore_other _ _ _ _ hj]

theorem alarm_delete_inv (s : AlarmHeap) (id : AlarmId) (h : HeapInv s) :
    HeapInv (alarm_delete s id) := by
  rw [alarm_delete]
  by_cases hp : (s.store id).heap_index ≠ -1
  · rw [if_pos hp]
    obtain ⟨k, hk, hget, hidx⟩ := heapInv_pending_pos s h id hp
    have hkn : ((s.store id).heap_index).toNat = k := by rw [hidx]; simp
    rw [hkn]
    exact remove_alarm_inv s k h hk
  · rw [if_neg hp]
    exact h

theorem alarm_set_callback_helper_inv (s : AlarmHeap) (id : AlarmId)
    (handler harg : MpObj) (now : Nat) (h : HeapInv s) :
    HeapInv (alarm_set_callback_helper s id handler harg now).st := by
  rw [alarm_set_callback_helper]
  have hs0 : HeapInv ⟨setHandler s.store id handler
      (if harg = MpObj.none then MpObj.alarmRef id else harg), s.data⟩ := by
    apply heapInv_congr s _ ?_ ?_ h
    · intro j
      exact setHandler_heap_index _ _ _ _ j
    · intro j _
      exact setHandler_when _ _ _ _ j
  have hsidx : (setHandler s.store id handler
      (if harg = MpObj.none then MpObj.alarmRef id else harg) id).heap_index =
      (s.store id).heap_index := setHandler_heap_index _ _ _ _ id
  by_cases hh : handler = MpObj.none
  · rw [if_pos hh]
    by_cases hp : (setHandler s.store id handler
        (if harg = MpObj.none then MpObj.alarmRef id else harg) id).heap_index ≠ -1
    · rw [if_pos hp]
      dsimp only
      rw [hsidx] at hp
      obtain ⟨k, hk, hget, hidx⟩ := heapInv_pending_pos s h id hp
      have hknat : ((setHandler s.store id handler
          (if harg = MpObj.none then MpObj.alarmRef id else harg) id).heap_index).toNat = k := by
        rw [hsidx, hidx]; simp
      rw [hknat]
      exact remove_alarm_inv _ k hs0 hk
    · rw [if_neg hp]
      exact hs0
  · rw [if_neg hh]
    by_cases hp : (setHandler s.store id handler
        (if harg = MpObj.none then MpObj.alarmRef id else harg) id).heap_index = -1
    · rw [if_pos hp]
      rw [hsidx] at hp
      have hnm : id ∉ s.data := by
        intro hc
        exact ((heapInv_mem_iff s h id).mp hc) hp
      by_cases hfull : s.data.length = ALARM_HEAP_MAX_ELEMENTS
      · rw [if_pos hfull]
        exact hs0
      · rw [if_neg hfull]
        dsimp only
        apply insert_alarm_inv _ id ?_ ?_ ?_
        · apply heapInv_congr ⟨setHandler s.store id handler
            (if harg = MpObj.none then MpObj.alarmRef id else harg), s.data⟩ _ ?_ ?_ hs0
          · intro j
            exact set_alarm_when_heap_index _ _ _ _ j
          · intro j hj
            have hne : j ≠ id := fun hc => hnm (hc ▸ hj)
            rw [set_alarm_when_other _ _ _ _ j hne]
        · show s.data.length < ALARM_HEAP_MAX_ELEMENTS
          have hc2 := h.cap
          rw [ALARM_HEAP_MAX_ELEMENTS] at hfull hc2 ⊢
          omega
        · exact hnm
    · rw [if_neg hp]
      exact hs0

theorem timer_alarm_isr_inv (s : AlarmHeap) (hw : HwTimer) (now : Nat) (h : HeapInv s) :
    HeapInv (timer_alarm_isr s hw now).1 := by
  obtain ⟨σ, l⟩ := s
  cases l with
  | nil => exact h
  | cons a rest =>
    have hlen : 0 < (AlarmHeap.mk σ (a :: rest)).data.length := by simp
    have h1 : HeapInv (remove_alarm ⟨σ, a :: rest⟩ 0) := remove_alarm_inv _ 0 h hlen
    have hidx : ((remove_alarm ⟨σ, a :: rest⟩ 0).store a).heap_index = -1 := by
      have hr := remove_alarm_removed_index ⟨σ, a :: rest⟩ 0 h hlen
      simpa using hr
    have hnm : a ∉ (remove_alarm ⟨σ, a :: rest⟩ 0).data := by
      intro hc
      exact ((heapInv_mem_iff _ h1 a).mp hc) hidx
    have hlen1 : (remove_alarm ⟨σ, a :: rest⟩ 0).data.length < ALARM_HEAP_MAX_ELEMENTS := by
      show rest.length < ALARM_HEAP_MAX_ELEMENTS
      have hc2 := h.cap
      simp only [List.length_cons] at hc2
      omega
    show HeapInv (if ((remove_alarm ⟨σ, a :: rest⟩ 0).store a).periodic then
        insert_alarm ⟨set_alarm_when (remove_alarm ⟨σ, a :: rest⟩ 0).store a now
          (((remove_alarm ⟨σ, a :: rest⟩ 0).store a).interval),
          (remove_alarm ⟨σ, a :: rest⟩ 0).data⟩ a
      else remove_alarm ⟨σ, a :: rest⟩ 0)
    by_cases hper : ((remove_alarm ⟨σ, a :: rest⟩ 0).store a).periodic
    · rw [if_pos hper]
      apply insert_alarm_inv ⟨set_alarm_when (remove_alarm ⟨σ, a :: rest⟩ 0).store a now
          (((remove_alarm ⟨σ, a :: rest⟩ 0).store a).interval),
          (remove_alarm ⟨σ, a :: rest⟩ 0).data⟩ a ?_ ?_ ?_
      · apply heapInv_congr (remove_alarm ⟨σ, a :: rest⟩ 0) _ ?_ ?_ h1
        · intro j
          exact set_alarm_when_heap_index _ _ _ _ j
        · intro j hj
          have hne : j ≠ a := fun hc => hnm (hc ▸ hj)
          rw [set_alarm_when_other _ _ _ _ j hne]
      · exact hlen1
      · exact hnm
    · rw [if_neg hper]
      exact h1

theorem setHandler_self_handler (σ : Store) (id : AlarmId) (h a : MpObj) :
    ((setHandler σ id h a) id).handler = h := by
  simp [setHandler, updStore]

theorem heapInv_head_min (s : AlarmHeap) (h : HeapInv s) (hne : s.data ≠ [])
    (j : AlarmId) (hj : j ∈ s.data) :
    (s.store (s.data.head hne)).when ≤ (s.store j).when := by
  obtain ⟨σ, l⟩ := s
  cases l with
  | nil => exact absurd rfl hne
  | cons a rest =>
    have hs := h.sorted
    rw [SortedHeap, List.pairwise_cons] at hs
    rcases List.mem_cons.mp hj with h1 | h2
    · rw [h1]
      exact le_rfl
    · exact hs.1 j h2

/-- A user-level mutation of the alarm heap: `activate` is `Alarm.callback`
(i.e. `alarm_set_callback_helper`), `cancel` is `alarm_delete`. -/
inductive AlarmOp where
  | activate (id : AlarmId) (handler harg : MpObj) (now : Nat)
  | cancel (id : AlarmId)

def runOp (s : AlarmHeap) : AlarmOp → AlarmHeap
  | AlarmOp.activate id handler harg now => (alarm_set_callback_helper s id handler harg now).st
  | AlarmOp.cancel id => alarm_delete s id

def runOps (s : AlarmHeap) (ops : List AlarmOp) : AlarmHeap :=
  ops.foldl runOp s

theorem runOp_inv (s : AlarmHeap) (op : AlarmOp) (h : HeapInv s) : HeapInv (runOp s op) := by
  cases op with
  | activate id handler harg now => exact alarm_set_callback_helper_inv s id handler harg now h
  | cancel id => exact alarm_delete_inv s id h

theorem runOps_inv (s : AlarmHeap) (ops : List AlarmOp) (h : HeapInv s) :
    HeapInv (runOps s ops) := by
  induction ops generalizing s with
  | nil => exact h
  | cons op rest ih => exact ih (runOp s op) (runOp_inv s op h)

/-- The alarm's stored `heap_index` is a real position: in range, and the heap
slot there points back to the alarm. -/
def ValidPos (s : AlarmHeap) (id : AlarmId) : Prop :=
  ∃ k : Nat, ∃ hk : k < s.data.length,
    (s.store id).heap_index = (k : Int) ∧ s.data.get ⟨k, hk⟩ = id

/-- The position/membership invariant of claim C3: an alarm's `position` is
valid iff the alarm is a member, and is the `-1` sentinel otherwise. -/
def PosInv (s : AlarmHeap) : Prop :=
  ∀ id, (id ∈ s.data ↔ ValidPos s id) ∧ (id ∉ s.data → (s.store id).heap_index = -1)

theorem heapInv_posInv (s : AlarmHeap) (h : HeapInv s) : PosInv s := by
  intro id
  constructor
  · constructor
    · intro hm
      obtain ⟨⟨k, hk⟩, hg⟩ := List.mem_iff_get.mp hm
      refine ⟨k, hk, ?_, hg⟩
      have := h.pos ⟨k, hk⟩
      rw [hg] at this
      exact this
    · intro ⟨k, hk, _, hg⟩
      rw [← hg]
      exact List.get_mem _ _ _
  · exact h.clear id

theorem split64 (w : Nat) : ((w / U32) % U32) * U32 + w % U32 = w % U64 := by
  rw [U32, U64, show (2 : Nat) ^ 64 = 2 ^ 32 * 2 ^ 32 from by norm_num, Nat.mod_mul]
  ring

/-- A concrete alarm object for test states. -/
def mkAlarm (w iv : Nat) (hi : Int) (p : Bool) : mp_obj_alarm_t :=
  { when := w, interval := iv, heap_index := hi, handler := MpObj.obj 1,
    handler_arg := MpObj.obj 1, periodic := p }

/-- Test state: empty heap, every alarm inactive. -/
def emptyHeap : AlarmHeap :=
  { store := fun _ => mkAlarm 0 5 (-1) false, data := [] }

theorem emptyHeap_inv : HeapInv emptyHeap := by
  refine ⟨List.nodup_nil, by simp [emptyHeap, ALARM_HEAP_MAX_ELEMENTS], ?_, ?_, ?_⟩
  · intro i
    exact absurd i.isLt (by simp [emptyHeap])
  · intro id _
    rfl
  · exact List.Pairwise.nil

/-- Test state: alarm `0` pending at position 0 with deadline 5; alarm `1`
inactive with the same deadline 5 (for the equal-deadline insertion test). -/
def tieHeap : AlarmHeap :=
  { store := fun j => if j = 0 then mkAlarm 5 2 0 false else mkAlarm 5 2 (-1) false,
    data := [0] }

theorem tieHeap_inv : HeapInv tieHeap := by
  refine ⟨?_, ?_, ?_, ?_, ?_⟩
  · simp [tieHeap]
  · simp [tieHeap, ALARM_HEAP_MAX_ELEMENTS]
  · intro ⟨k, hk⟩
    cases k with
    | zero => rfl
    | succ n => exact absurd hk (by simp [tieHeap])
  · intro id hid
    have hne : id ≠ 0 := by simpa [tieHeap] using hid
    simp [tieHeap, mkAlarm, hne]
  · simp [tieHeap, SortedHeap]

/-- Test state: alarm `0` pending at position 0, periodic with interval 3 and
deadline 5; all other alarms inactive. -/
def pendHeap : AlarmHeap :=
  { store := fun j => if j = 0 then mkAlarm 5 3 0 true else mkAlarm 7 3 (-1) false,
    data := [0] }

theorem pendHeap_inv : HeapInv pendHeap := by
  refine ⟨?_, ?_, ?_, ?_, ?_⟩
  · simp [pendHeap]
  · simp [pendHeap, ALARM_HEAP_MAX_ELEMENTS]
  · intro ⟨k, hk⟩
    cases k with
    | zero => rfl
    | succ n => exact absurd hk (by simp [pendHeap])
  · intro id hid
    have hne : id ≠ 0 := by simpa [pendHeap] using hid
    simp [pendHeap, mkAlarm, hne]
  · simp [pendHeap, SortedHeap]

/-- Test state: the heap holds 16 alarms `0..15` (at capacity), alarm `j`
pending at position `j` with deadline `j`; every other alarm inactive. -/
def fullHeap : AlarmHeap :=
  { store := fun j => if j < 16 then mkAlarm j 1 (j : Int) false else mkAlarm 0 1 (-1) false,
    data := List.range 16 }

theorem fullHeap_inv : HeapInv fullHeap := by
  refine ⟨?_, ?_, ?_, ?_, ?_⟩
  · exact List.nodup_range 16
  · simp [fullHeap, ALARM_HEAP_MAX_ELEMENTS]
  · intro ⟨k, hk⟩
    have hk16 : k < 16 := by simpa [fullHeap] using hk
    show (fullHeap.store ((List.range 16).get ⟨k, by simpa [fullHeap] using hk⟩)).heap_index = _
    simp [List.get_eq_getElem, List.getElem_range, fullHeap, mkAlarm, hk16]
  · intro id hid
    have h16 : ¬ id < 16 := by simpa [fullHeap, List.mem_range] using hid
    simp [fullHeap, mkAlarm, h16]
  · show SortedHeap fullHeap.store (List.range 16)
    rw [SortedHeap, List.pairwise_iff_getElem]
    intro a b ha hb hab
    have ha16 : a < 16 := by simpa using ha
    have hb16 : b < 16 := by simpa using hb
    simp [List.getElem_range, fullHeap, mkAlarm, ha16, hb16]
    omega

/-- C8: in the interrupt handler the reinsertion of a popped periodic alarm can
never exceed capacity: `remove_alarm 0` always precedes the insert, so at the
moment `insert_alarm` is called from `timer_alarm_isr` the heap count is
strictly below 16, which is exactly `insert_alarm`'s free-slot precondition. -/
theorem C8_isr_reinsert_within_capacity (s : AlarmHeap)
    (hcap : s.data.length ≤ ALARM_HEAP_MAX_ELEMENTS) (hne : s.data ≠ []) :
    (remove_alarm s 0).data.length < ALARM_HEAP_MAX_ELEMENTS := by
  have hpos : 0 < s.data.length := List.length_pos.mpr hne
  rw [remove_alarm_data, length_remove_list s.data 0 hpos]
  rw [ALARM_HEAP_MAX_ELEMENTS] at hcap ⊢
  omega

theorem C8_witness :
    pendHeap.data.length ≤ ALARM_HEAP_MAX_ELEMENTS ∧ pendHeap.data ≠ [] ∧
    (remove_alarm pendHeap 0).data.length < ALARM_HEAP_MAX_ELEMENTS :=
  ⟨by decide, by decide,
    C8_isr_reinsert_within_capacity pendHeap (by decide) (by decide)⟩

/-- C6: `load_next_alarm` first disarms the comparator unconditionally and then
arms it exactly when the heap is non-empty; the programmed compare value
(reassembled from its high/low 32-bit halves) is the deadline of the alarm at
index 0, which under the heap invariant is the minimum pending deadline. -/
theorem C6_load_next_alarm_arms_earliest (s : AlarmHeap) (hw : HwTimer)
    (h : HeapInv s) :
    ((load_next_alarm s hw).alarm_en = true ↔ s.data ≠ []) ∧
    (∀ a rest, s.data = a :: rest →
      (load_next_alarm s hw).alarm_high * U32 + (load_next_alarm s hw).alarm_low =
        (s.store a).when % U64) ∧
    (∀ hne : s.data ≠ [], ∀ j ∈ s.data,
      (s.store (s.data.head hne)).when ≤ (s.store j).when) := by
  refine ⟨?_, ?_, fun hne j hj => heapInv_head_min s h hne j hj⟩
  · obtain ⟨σ, l⟩ := s
    cases l with
    | nil => simp [load_next_alarm]
    | cons a rest => simp [load_next_alarm]
  · intro a rest heq
    obtain ⟨σ, l⟩ := s
    dsimp only at heq
    subst heq
    show ((σ a).when / U32 % U32) * U32 + (σ a).when % U32 = (σ a).when % U64
    exact split64 ((σ a).when)

theorem C6_witness :
    HeapInv pendHeap ∧
    (((load_next_alarm pendHeap ⟨false, 0, 0⟩).alarm_en = true ↔ pendHeap.data ≠ []) ∧
    (∀ a rest, pendHeap.data = a :: rest →
      (load_next_alarm pendHeap ⟨false, 0, 0⟩).alarm_high * U32 +
        (load_next_alarm pendHeap ⟨false, 0, 0⟩).alarm_low = (pendHeap.store a).when % U64) ∧
    (∀ hne : pendHeap.data ≠ [], ∀ j ∈ pendHeap.data,
      (pendHeap.store (pendHeap.data.head hne)).when ≤ (pendHeap.store j).when)) :=
  ⟨pendHeap_inv, C6_load_next_alarm_arms_earliest pendHeap ⟨false, 0, 0⟩ pendHeap_inv⟩

/-- C5: when `timer_alarm_isr` pops a periodic alarm it reinserts it with a
deadline equal to the hardware tick count sampled at fire time plus the
interval (64-bit arithmetic), not the previous deadline plus the interval; in
particular, when `now + interval` does not overflow 64 bits, the new deadline
is not in the past relative to the moment of firing. -/
theorem C5_periodic_reinserted_at_now_plus_interval (s : AlarmHeap) (hw : HwTimer)
    (now : Nat) (a : AlarmId) (rest : List AlarmId)
    (h : HeapInv s) (hd : s.data = a :: rest) (hper : (s.store a).periodic = true) :
    (((timer_alarm_isr s hw now).1.store a).when =
        (now + (s.store a).interval) % U64) ∧
    a ∈ (timer_alarm_isr s hw now).1.data ∧
    (now + (s.store a).interval < U64 →
      now ≤ ((timer_alarm_isr s hw now).1.store a).when) := by
  obtain ⟨σ, l⟩ := s
  dsimp only at hd hper ⊢
  subst hd
  have hso := remove_alarm_sameObjs ⟨σ, a :: rest⟩ 0
  have hper1 : ((remove_alarm ⟨σ, a :: rest⟩ 0).store a).periodic = true := by
    rw [(hso a).2.2.1]
    exact hper
  have hint1 : ((remove_alarm ⟨σ, a :: rest⟩ 0).store a).interval = (σ a).interval :=
    (hso a).2.1
  have hisr : (timer_alarm_isr ⟨σ, a :: rest⟩ hw now).1 =
      (if ((remove_alarm ⟨σ, a :: rest⟩ 0).store a).periodic then
        insert_alarm ⟨set_alarm_when (remove_alarm ⟨σ, a :: rest⟩ 0).store a now
          (((remove_alarm ⟨σ, a :: rest⟩ 0).store a).interval),
          (remove_alarm ⟨σ, a :: rest⟩ 0).data⟩ a
      else remove_alarm ⟨σ, a :: rest⟩ 0) := rfl
  rw [hisr, if_pos hper1]
  have hpre := insert_alarm_sameObjs ⟨set_alarm_when (remove_alarm ⟨σ, a :: rest⟩ 0).store a now
      (((remove_alarm ⟨σ, a :: rest⟩ 0).store a).interval),
      (remove_alarm ⟨σ, a :: rest⟩ 0).data⟩ a
  have hwhen : ((insert_alarm ⟨set_alarm_when (remove_alarm ⟨σ, a :: rest⟩ 0).store a now
      (((remove_alarm ⟨σ, a :: rest⟩ 0).store a).interval),
      (remove_alarm ⟨σ, a :: rest⟩ 0).data⟩ a).store a).when =
      (now + (σ a).interval) % U64 := by
    rw [(hpre a).1]
    show ((set_alarm_when (remove_alarm ⟨σ, a :: rest⟩ 0).store a now
      (((remove_alarm ⟨σ, a :: rest⟩ 0).store a).interval)) a).when = _
    rw [set_alarm_when_self_when, hint1, Nat.mod_add_mod]
  refine ⟨hwhen, ?_, ?_⟩
  · rw [insert_alarm_data]
    exact List.mem_append.mpr (Or.inr (List.mem_cons_self _ _))
  · intro hlt
    rw [hwhen, Nat.mod_eq_of_lt hlt]
    exact Nat.le_add_right now _

theorem C5_witness :
    HeapInv pendHeap ∧ pendHeap.data = 0 :: [] ∧ (pendHeap.store 0).periodic = true ∧
    ((((timer_alarm_isr pendHeap ⟨false, 0, 0⟩ 10).1.store 0).when =
        (10 + (pendHeap.store 0).interval) % U64) ∧
    0 ∈ (timer_alarm_isr pendHeap ⟨false, 0, 0⟩ 10).1.data ∧
    (10 + (pendHeap.store 0).interval < U64 →
      10 ≤ ((timer_alarm_isr pendHeap ⟨false, 0, 0⟩ 10).1.store 0).when)) :=
  ⟨pendHeap_inv, rfl, rfl,
    C5_periodic_reinserted_at_now_plus_interval pendHeap ⟨false, 0, 0⟩ 10 0 []
      pendHeap_inv rfl rfl⟩

/-- C7: cancellation (`alarm_delete`, bound as `cancel` and `__del__`) is
idempotent: on a non-pending alarm it is a no-op returning the state unchanged
(and raises no error), and cancelling the same alarm twice leaves the same
state as cancelling it once. -/
theorem C7_cancel_idempotent (s : AlarmHeap) (id : AlarmId) (h : HeapInv s) :
    ((s.store id).heap_index = -1 → alarm_delete s id = s) ∧
    alarm_delete (alarm_delete s id) id = alarm_delete s id := by
  have hnoop : ∀ t : AlarmHeap, (t.store id).heap_index = -1 → alarm_delete t id = t := by
    intro t hnp
    rw [alarm_delete, if_neg (fun hne => hne hnp)]
  refine ⟨hnoop s, ?_⟩
  by_cases hp : (s.store id).heap_index = -1
  · rw [hnoop s hp]
    exact hnoop s hp
  · obtain ⟨k, hk, hget, hidx⟩ := heapInv_pending_pos s h id hp
    have hdel : alarm_delete s id = remove_alarm s k := by
      rw [alarm_delete, if_pos hp, hidx]
      simp
    have hafter : ((alarm_delete s id).store id).heap_index = -1 := by
      rw [hdel, ← hget]
      exact remove_alarm_removed_index s k h hk
    rw [hnoop (alarm_delete s id) hafter]

theorem C7_witness :
    HeapInv pendHeap ∧
    (((pendHeap.store 0).heap_index = -1 → alarm_delete pendHeap 0 = pendHeap) ∧
      alarm_delete (alarm_delete pendHeap 0) 0 = alarm_delete pendHeap 0) :=
  ⟨pendHeap_inv, C7_cancel_idempotent pendHeap 0 pendHeap_inv⟩

/-- C10: setting a non-`None` handler on an alarm that is already pending
updates only the alarm's `handler`/`handler_arg` fields: the heap contents, the
count, the alarm's deadline, `heap_index`, `interval` and `periodic` flag, and
every other alarm object are unchanged, and no error is raised. -/
theorem C10_callback_on_pending_frame (s : AlarmHeap) (id : AlarmId)
    (handler harg : MpObj) (now : Nat)
    (hh : handler ≠ MpObj.none) (hp : (s.store id).heap_index ≠ -1) :
    ((alarm_set_callback_helper s id handler harg now).st.data = s.data) ∧
    (((alarm_set_callback_helper s id handler harg now).st.store id).when =
      (s.store id).when) ∧
    (((alarm_set_callback_helper s id handler harg now).st.store id).heap_index =
      (s.store id).heap_index) ∧
    (((alarm_set_callback_helper s id handler harg now).st.store id).interval =
      (s.store id).interval) ∧
    (((alarm_set_callback_helper s id handler harg now).st.store id).periodic =
      (s.store id).periodic) ∧
    (((alarm_set_callback_helper s id handler harg now).st.store id).handler = handler) ∧
    (∀ j, j ≠ id → (alarm_set_callback_helper s id handler harg now).st.store j =
      s.store j) ∧
    ((alarm_set_callback_helper s id handler harg now).error = false) := by
  have hsidx : (setHandler s.store id handler
      (if harg = MpObj.none then MpObj.alarmRef id else harg) id).heap_index =
      (s.store id).heap_index := setHandler_heap_index _ _ _ _ id
  have hres : alarm_set_callback_helper s id handler harg now =
      { st := ⟨setHandler s.store id handler
          (if harg = MpObj.none then MpObj.alarmRef id else harg), s.data⟩,
        error := false } := by
    rw [alarm_set_callback_helper]
    rw [if_neg hh, if_neg (by rw [hsidx]; exact hp)]
  rw [hres]
  refine ⟨rfl, ?_, ?_, ?_, ?_, ?_, ?_, rfl⟩
  · exact setHandler_when _ _ _ _ id
  · exact hsidx
  · exact setHandler_interval _ _ _ _ id
  · show ((setHandler s.store id handler _) id).periodic = _
    simp [setHandler, updStore]
  · exact setHandler_self_handler _ _ _ _
  · intro j hj
    exact setHandler_other _ _ _ _ j hj

theorem C10_witness :
    MpObj.obj 2 ≠ MpObj.none ∧ (pendHeap.store 0).heap_index ≠ -1 ∧
    (((alarm_set_callback_helper pendHeap 0 (MpObj.obj 2) MpObj.none 9).st.data =
      pendHeap.data) ∧
    (((alarm_set_callback_helper pendHeap 0 (MpObj.obj 2) MpObj.none 9).st.store 0).when =
      (pendHeap.store 0).when) ∧
    (((alarm_set_callback_helper pendHeap 0 (MpObj.obj 2) MpObj.none 9).st.store 0).heap_index =
      (pendHeap.store 0).heap_index) ∧
    (((alarm_set_callback_helper pendHeap 0 (MpObj.obj 2) MpObj.none 9).st.store 0).interval =
      (pendHeap.store 0).interval) ∧
    (((alarm_set_callback_helper pendHeap 0 (MpObj.obj 2) MpObj.none 9).st.store 0).periodic =
      (pendHeap.store 0).periodic) ∧
    (((alarm_set_callback_helper pendHeap 0 (MpObj.obj 2) MpObj.none 9).st.store 0).handler =
      MpObj.obj 2) ∧
    (∀ j, j ≠ 0 → (alarm_set_callback_helper pendHeap 0 (MpObj.obj 2) MpObj.none 9).st.store j =
      pendHeap.store j) ∧
    ((alarm_set_callback_helper pendHeap 0 (MpObj.obj 2) MpObj.none 9).error = false)) :=
  ⟨by decide, by decide,
    C10_callback_on_pending_frame pendHeap 0 (MpObj.obj 2) MpObj.none 9
      (by decide) (by decide)⟩

/-- C4: activating an alarm while 16 alarms are already pending fails: the
capacity error is reported synchronously (`error = true`, raised as the
`MemoryError` the spec calls `CapacityExceeded`) and the heap is untouched —
the data array is unchanged, the count stays 16, every pending alarm object is
unchanged, and the alarm being activated is still not pending. -/
theorem C4_capacity_exceeded_no_side_effects (s : AlarmHeap) (id : AlarmId)
    (handler harg : MpObj) (now : Nat) (h : HeapInv s)
    (hfull : s.data.length = ALARM_HEAP_MAX_ELEMENTS)
    (hnp : (s.store id).heap_index = -1) (hh : handler ≠ MpObj.none) :
    ((alarm_set_callback_helper s id handler harg now).error = true) ∧
    ((alarm_set_callback_helper s id handler harg now).st.data = s.data) ∧
    ((alarm_set_callback_helper s id handler harg now).st.data.length =
      ALARM_HEAP_MAX_ELEMENTS) ∧
    (∀ j ∈ s.data, (alarm_set_callback_helper s id handler harg now).st.store j =
      s.store j) ∧
    (((alarm_set_callback_helper s id handler harg now).st.store id).heap_index = -1) := by
  have hsidx : (setHandler s.store id handler
      (if harg = MpObj.none then MpObj.alarmRef id else harg) id).heap_index =
      (s.store id).heap_index := setHandler_heap_index _ _ _ _ id
  have hnm : id ∉ s.data := by
    intro hc
    exact ((heapInv_mem_iff s h id).mp hc) hnp
  have hres : alarm_set_callback_helper s id handler harg now =
      { st := ⟨setHandler s.store id handler
          (if harg = MpObj.none then MpObj.alarmRef id else harg), s.data⟩,
        error := true } := by
    rw [alarm_set_callback_helper]
    rw [if_neg hh, if_pos (by rw [hsidx]; exact hnp), if_pos hfull]
  rw [hres]
  refine ⟨rfl, rfl, hfull, ?_, ?_⟩
  · intro j hj
    have hne : j ≠ id := fun hc => hnm (hc ▸ hj)
    exact setHandler_other _ _ _ _ j hne
  · rw [hsidx]
    exact hnp

theorem C4_witness :
    HeapInv fullHeap ∧ fullHeap.data.length = ALARM_HEAP_MAX_ELEMENTS ∧
    (fullHeap.store 99).heap_index = -1 ∧ MpObj.obj 2 ≠ MpObj.none ∧
    (((alarm_set_callback_helper fullHeap 99 (MpObj.obj 2) MpObj.none 0).error = true) ∧
    ((alarm_set_callback_helper fullHeap 99 (MpObj.obj 2) MpObj.none 0).st.data =
      fullHeap.data) ∧
    ((alarm_set_callback_helper fullHeap 99 (MpObj.obj 2) MpObj.none 0).st.data.length =
      ALARM_HEAP_MAX_ELEMENTS) ∧
    (∀ j ∈ fullHeap.data,
      (alarm_set_callback_helper fullHeap 99 (MpObj.obj 2) MpObj.none 0).st.store j =
        fullHeap.store j) ∧
    (((alarm_set_callback_helper fullHeap 99 (MpObj.obj 2) MpObj.none 0).st.store
        99).heap_index = -1)) :=
  ⟨fullHeap_inv, by decide, by decide, by decide,
    C4_capacity_exceeded_no_side_effects fullHeap 99 (MpObj.obj 2) MpObj.none 0
      fullHeap_inv (by decide) (by decide) (by decide)⟩

/-- C2: for every sequence of activate/cancel operations starting from a valid
state, the heap array stays ordered by non-decreasing deadline and the entry at
index 0 (when the heap is non-empty) has the minimum deadline of all pending
alarms; moreover `insert_alarm` and `remove_alarm` each preserve the ordering. -/
theorem C2_ordering_invariant (s : AlarmHeap) (ops : List AlarmOp) (h : HeapInv s) :
    SortedHeap (runOps s ops).store (runOps s ops).data ∧
    (∀ hne : (runOps s ops).data ≠ [], ∀ j ∈ (runOps s ops).data,
      ((runOps s ops).store ((runOps s ops).data.head hne)).when ≤
        ((runOps s ops).store j).when) ∧
    (∀ id, id ∉ s.data → s.data.length < ALARM_HEAP_MAX_ELEMENTS →
      SortedHeap (insert_alarm s id).store (insert_alarm s id).data) ∧
    (∀ i, i < s.data.length →
      SortedHeap (remove_alarm s i).store (remove_alarm s i).data) := by
  have hops := runOps_inv s ops h
  refine ⟨hops.sorted, fun hne j hj => heapInv_head_min _ hops hne j hj, ?_, ?_⟩
  · intro id hid hlen
    exact (insert_alarm_inv s id h hlen hid).sorted
  · intro i hi
    exact (remove_alarm_inv s i h hi).sorted

theorem C2_witness :
    HeapInv emptyHeap ∧
    (SortedHeap (runOps emptyHeap [AlarmOp.activate 1 (MpObj.obj 2) MpObj.none 7,
        AlarmOp.activate 2 (MpObj.obj 2) MpObj.none 3, AlarmOp.cancel 1]).store
      (runOps emptyHeap [AlarmOp.activate 1 (MpObj.obj 2) MpObj.none 7,
        AlarmOp.activate 2 (MpObj.obj 2) MpObj.none 3, AlarmOp.cancel 1]).data ∧
    (∀ hne : (runOps emptyHeap [AlarmOp.activate 1 (MpObj.obj 2) MpObj.none 7,
        AlarmOp.activate 2 (MpObj.obj 2) MpObj.none 3, AlarmOp.cancel 1]).data ≠ [],
      ∀ j ∈ (runOps emptyHeap [AlarmOp.activate 1 (MpObj.obj 2) MpObj.none 7,
        AlarmOp.activate 2 (MpObj.obj 2) MpObj.none 3, AlarmOp.cancel 1]).data,
      ((runOps emptyHeap [AlarmOp.activate 1 (MpObj.obj 2) MpObj.none 7,
        AlarmOp.activate 2 (MpObj.obj 2) MpObj.none 3, AlarmOp.cancel 1]).store
          ((runOps emptyHeap [AlarmOp.activate 1 (MpObj.obj 2) MpObj.none 7,
            AlarmOp.activate 2 (MpObj.obj 2) MpObj.none 3, AlarmOp.cancel 1]).data.head hne)).when ≤
        ((runOps emptyHeap [AlarmOp.activate 1 (MpObj.obj 2) MpObj.none 7,
          AlarmOp.activate 2 (MpObj.obj 2) MpObj.none 3, AlarmOp.cancel 1]).store j).when) ∧
    (∀ id, id ∉ emptyHeap.data → emptyHeap.data.length < ALARM_HEAP_MAX_ELEMENTS →
      SortedHeap (insert_alarm emptyHeap id).store (insert_alarm emptyHeap id).data) ∧
    (∀ i, i < emptyHeap.data.length →
      SortedHeap (remove_alarm emptyHeap i).store (remove_alarm emptyHeap i).data)) :=
  ⟨emptyHeap_inv,
    C2_ordering_invariant emptyHeap [AlarmOp.activate 1 (MpObj.obj 2) MpObj.none 7,
      AlarmOp.activate 2 (MpObj.obj 2) MpObj.none 3, AlarmOp.cancel 1] emptyHeap_inv⟩

/-- C3: every heap operation (`insert_alarm`, `remove_alarm` and the interrupt
handler pop) preserves the position invariant: an alarm's `heap_index` is a
valid in-range index whose heap slot points back to the alarm iff the alarm is
a member, and equals the `-1` sentinel otherwise; a removed alarm's position is
set to the sentinel (shifted alarms' positions are re-established as their new
indices by the same invariant). -/
theorem C3_position_membership_invariant (s : AlarmHeap) (h : HeapInv s) :
    PosInv s ∧
    (∀ id, id ∉ s.data → s.data.length < ALARM_HEAP_MAX_ELEMENTS →
      PosInv (insert_alarm s id)) ∧
    (∀ i, i < s.data.length → PosInv (remove_alarm s i)) ∧
    (∀ i (hi : i < s.data.length),
      ((remove_alarm s i).store (s.data.get ⟨i, hi⟩)).heap_index = -1) ∧
    (∀ hw now, PosInv (timer_alarm_isr s hw now).1) := by
  refine ⟨heapInv_posInv s h, ?_, ?_, ?_, ?_⟩
  · intro id hid hlen
    exact heapInv_posInv _ (insert_alarm_inv s id h hlen hid)
  · intro i hi
    exact heapInv_posInv _ (remove_alarm_inv s i h hi)
  · intro i hi
    exact remove_alarm_removed_index s i h hi
  · intro hw now
    exact heapInv_posInv _ (timer_alarm_isr_inv s hw now h)

theorem C3_witness :
    HeapInv tieHeap ∧
    (PosInv tieHeap ∧
    (∀ id, id ∉ tieHeap.data → tieHeap.data.length < ALARM_HEAP_MAX_ELEMENTS →
      PosInv (insert_alarm tieHeap id)) ∧
    (∀ i, i < tieHeap.data.length → PosInv (remove_alarm tieHeap i)) ∧
    (∀ i (hi : i < tieHeap.data.length),
      ((remove_alarm tieHeap i).store (tieHeap.data.get ⟨i, hi⟩)).heap_index = -1) ∧
    (∀ hw now, PosInv (timer_alarm_isr tieHeap hw now).1)) :=
  ⟨tieHeap_inv, C3_position_membership_invariant tieHeap tieHeap_inv⟩

/-- C1 counterexample: the FIFO tie-break claim is false on the code.  In
`tieHeap` alarm 0 is pending with deadline 5 and alarm 1 (same deadline 5) is
then inserted; `insert_alarm`'s scan breaks on `alarm->when <=
data[index]->when`, so the new alarm lands at index 0, BEFORE the existing
equal-deadline alarm — not after it as the claim states. -/
theorem C1_counterexample :
    (tieHeap.store 1).when = (tieHeap.store 0).when ∧
    tieHeap.data = [0] ∧
    (insert_alarm tieHeap 1).data = [1, 0] ∧
    (insert_alarm tieHeap 1).data ≠ [0, 1] := by
  refine ⟨rfl, rfl, ?_, ?_⟩ <;> decide

/-- C1 (amended): when the inserted alarm's deadline equals the deadline of
alarms already in the set, the new alarm is placed BEFORE all existing alarms
with that deadline (LIFO among ties): in the post-insert array its position is
strictly smaller than the position of every pre-existing equal-deadline alarm,
so the newest of the tied alarms reaches index 0 first and is delivered
first. -/
theorem C1_amended_ties_insert_before (s : AlarmHeap) (id : AlarmId)
    (h : HeapInv s) (hid : id ∉ s.data)
    (j : AlarmId) (hj : j ∈ s.data) (hjw : (s.store j).when = (s.store id).when) :
    ∀ ki kj (hki : ki < (insert_alarm s id).data.length)
      (hkj : kj < (insert_alarm s id).data.length),
      (insert_alarm s id).data[ki] = id → (insert_alarm s id).data[kj] = j →
      ki < kj := by
  obtain ⟨σ, l⟩ := s
  dsimp only at hid hj hjw ⊢
  have hidxle : findInsertIndex σ ((σ id).when) l ≤ l.length :=
    findInsertIndex_le σ ((σ id).when) l
  have hdata : (insert_alarm ⟨σ, l⟩ id).data =
      l.take (findInsertIndex σ ((σ id).when) l) ++
        id :: l.drop (findInsertIndex σ ((σ id).when) l) := rfl
  have hlen' : (insert_alarm ⟨σ, l⟩ id).data.length = l.length + 1 := by
    rw [hdata]
    exact length_insert_list l id _ hidxle
  have htl : (l.take (findInsertIndex σ ((σ id).when) l)).length =
      findInsertIndex σ ((σ id).when) l := by
    simp [List.length_take]
    omega
  have hnd' : (insert_alarm ⟨σ, l⟩ id).data.Nodup := by
    rw [hdata]
    exact nodup_insert_list l id _ h.nodup hid
  have hidxlt : findInsertIndex σ ((σ id).when) l < (insert_alarm ⟨σ, l⟩ id).data.length := by
    omega
  have hdid : (insert_alarm ⟨σ, l⟩ id).data[findInsertIndex σ ((σ id).when) l] = id := by
    simp only [hdata]
    rw [List.getElem_append_right (by omega)]
    have h0 : findInsertIndex σ ((σ id).when) l -
        (l.take (findInsertIndex σ ((σ id).when) l)).length = 0 := by omega
    simp only [h0, List.getElem_cons_zero]
  obtain ⟨p, hp, hpj⟩ := List.mem_iff_getElem.mp hj
  have hpge : findInsertIndex σ ((σ id).when) l ≤ p := by
    by_contra hc
    obtain ⟨hkl, hwlt⟩ := findInsertIndex_spec_lt σ ((σ id).when) l p (by omega)
    simp only [List.get_eq_getElem] at hwlt
    rw [hpj] at hwlt
    rw [hjw] at hwlt
    exact Nat.lt_irrefl _ hwlt
  have hp1 : p + 1 < (insert_alarm ⟨σ, l⟩ id).data.length := by omega
  have hdj : (insert_alarm ⟨σ, l⟩ id).data[p + 1] = j := by
    simp only [hdata]
    rw [List.getElem_append_right (by omega)]
    have h0 : p + 1 - (l.take (findInsertIndex σ ((σ id).when) l)).length =
        (p - findInsertIndex σ ((σ id).when) l) + 1 := by omega
    simp only [h0, List.getElem_cons_succ, List.getElem_drop]
    have h1 : findInsertIndex σ ((σ id).when) l +
        (p - findInsertIndex σ ((σ id).when) l) = p := by omega
    simp only [h1]
    exact hpj
  intro ki kj hki hkj hkid hkjd
  have hki_eq : ki = findInsertIndex σ ((σ id).when) l :=
    (hnd'.getElem_inj_iff).mp (hkid.trans hdid.symm)
  have hkj_eq : kj = p + 1 :=
    (hnd'.getElem_inj_iff).mp (hkjd.trans hdj.symm)
  omega

theorem C1_witness :
    HeapInv tieHeap ∧ 1 ∉ tieHeap.data ∧ 0 ∈ tieHeap.data ∧
    (tieHeap.store 0).when = (tieHeap.store 1).when ∧
    (0 : Nat) < 1 :=
  ⟨tieHeap_inv, by decide, by decide, rfl,
    C1_amended_ties_insert_before tieHeap 1 tieHeap_inv (by decide) 0 (by decide) rfl
      0 1 (by decide) (by decide) (by decide) (by decide)⟩

instance : DecidableEq (Except String Nat)
  | Except.ok a, Except.ok b =>
      if h : a = b then isTrue (h ▸ rfl) else isFalse (fun hc => h (Except.ok.inj hc))
  | Except.error a, Except.error b =>
      if h : a = b then isTrue (h ▸ rfl) else isFalse (fun hc => h (Except.error.inj hc))
  | Except.ok _, Except.error _ => isFalse (fun hc => Except.noConfusion hc)
  | Except.error _, Except.ok _ => isFalse (fun hc => Except.noConfusion hc)

theorem floor_of_s_zero : ((0 : ℚ) * (CLK_FREQ : ℚ) + 1/2).floor = 0 := by
  have he : ((0 : ℚ) * (CLK_FREQ : ℚ) + 1/2) = 1/2 := by norm_num
  rw [he]
  have h1 : (0 : Int) ≤ Rat.floor (1/2 : ℚ) := Rat.le_floor.mpr (by norm_num)
  have h2 : ¬ (1 : Int) ≤ Rat.floor (1/2 : ℚ) := by
    intro hc
    have hle := Rat.le_floor.mp hc
    norm_num at hle
  omega

/-- Evaluation of `alarm_make_new_core` when the float argument is absent
(`s = 0`) and exactly one of the converted `ms`/`us` values is nonzero. -/
theorem alarm_make_new_core_s_zero (ms_in us_in : Int)
    (h1 : ((if (ms_in % (2 ^ 32 : Int)).toNat ≠ 0 then 1 else 0) +
      (if (us_in % (2 ^ 32 : Int)).toNat ≠ 0 then 1 else 0) : Nat) = 1) :
    alarm_make_new_core 0 ms_in us_in = Except.ok
      (((ms_in % (2 ^ 32 : Int)).toNat * (CLK_FREQ / 1000) % U32 +
        (us_in % (2 ^ 32 : Int)).toNat * (CLK_FREQ / 1000000) % U32) % U64) := by
  simp only [alarm_make_new_core]
  have hs0 : ((if (0 : ℚ) ≠ 0 then 1 else 0) : Nat) = 0 := by norm_num
  rw [if_neg (by rw [hs0, Nat.zero_add, h1]; exact fun hc => hc rfl),
    if_neg (by norm_num)]
  rw [floor_of_s_zero]
  simp

set_option maxRecDepth 4000 in
/-- C9 counterexample: the claim that construction fails whenever the supplied
value is negative, and that every successfully constructed alarm has a positive
tick interval, is false on the code.  `ms` and `us` are assigned to `uint32_t`
variables, so `ms = -1` wraps to `4294967295` and is accepted with no error
(first conjunct), and `ms = 67108864` (`2 ^ 26`) passes validation but its
`uint32_t` product `ms * 40000` overflows to exactly 0, constructing an alarm
with interval 0 (second conjunct). -/
theorem C9_counterexample :
    alarm_make_new_core 0 (-1) 0 = Except.ok 4294927296 ∧
    alarm_make_new_core 0 67108864 0 = Except.ok 0 := by
  constructor
  · rw [alarm_make_new_core_s_zero (-1) 0 (by decide)]
    decide
  · rw [alarm_make_new_core_s_zero 67108864 0 (by decide)]
    decide

set_option maxRecDepth 4000 in
/-- C9 (amended): construction fails with `ValueError` iff the number of
nonzero duration units — counting `ms` and `us` after their conversion to
unsigned 32-bit — differs from one, or `s` is negative; negative `ms`/`us`
inputs wrap modulo `2 ^ 32` and are accepted (the unsigned `< 0` checks are
vacuous), and a successful construction can yield interval 0 when the 32-bit
products overflow. -/
theorem C9_amended_validation :
    (∀ (s : ℚ) (ms_in us_in : Int),
      (∃ e, alarm_make_new_core s ms_in us_in = Except.error e) ↔
        (((if s ≠ 0 then 1 else 0) +
          (if (ms_in % (2 ^ 32 : Int)).toNat ≠ 0 then 1 else 0) +
          (if (us_in % (2 ^ 32 : Int)).toNat ≠ 0 then 1 else 0) : Nat) ≠ 1 ∨ s < 0)) ∧
    (∃ v, alarm_make_new_core 0 (-1) 0 = Except.ok v) ∧
    alarm_make_new_core 0 67108864 0 = Except.ok 0 := by
  refine ⟨?_, ⟨4294927296, by rw [alarm_make_new_core_s_zero (-1) 0 (by decide)]; decide⟩,
    by rw [alarm_make_new_core_s_zero 67108864 0 (by decide)]; decide⟩
  intro s ms_in us_in
  simp only [alarm_make_new_core]
  by_cases h1 : ((if s ≠ 0 then 1 else 0) +
      (if (ms_in % (2 ^ 32 : Int)).toNat ≠ 0 then 1 else 0) +
      (if (us_in % (2 ^ 32 : Int)).toNat ≠ 0 then 1 else 0) : Nat) ≠ 1
  · rw [if_pos h1]
    exact iff_of_true ⟨"please provide a single duration", rfl⟩ (Or.inl h1)
  · rw [if_neg h1]
    by_cases h2 : s < 0
    · rw [if_pos h2]
      exact iff_of_true ⟨"please provide a positive number", rfl⟩ (Or.inr h2)
    · rw [if_neg h2]
      exact iff_of_false (fun ⟨_, he⟩ => Except.noConfusion he) (fun hor => hor.elim h1 h2)
